import Mathlib

/-!
Verification of the intraday momentum analyzer core
(`src/momentum_analyzer.py`, class `IntradayMomentumAnalyzer`).

The embedding below translates the pure computational core of the Python
class into Lean: prices and timestamps are rationals (timestamps are in
seconds, ages in minutes are obtained by dividing by 60, exactly as the
source computes `total_seconds() / 60`), fallible code is `Except`, and
the per-instrument mutable dictionaries become explicit state records.
-/

namespace MomentumAnalyzer

/-- Direction tag of a momentum shift, `shift_type` in the source
(strings "Upward" / "Downward"). -/
inductive ShiftType where
  | Upward
  | Downward
deriving DecidableEq

/-- One entry of `price_history[symbol]`: a `(timestamp, price)` pair. -/
structure Sample where
  timestamp : ℚ
  price : ℚ
deriving DecidableEq

/-- One entry of `momentum_shifts[symbol]`: the dict appended by
`detect_momentum_shift`. -/
structure Shift where
  timestamp : ℚ
  shift_type : ShiftType
  price_at_cross : ℚ
  ma_at_cross : ℚ
deriving DecidableEq

/-- `prev_cross_status[symbol]`: the dict written at the end of
`detect_momentum_shift`. -/
structure CrossStatus where
  above_ma : Bool
  timestamp : ℚ
deriving DecidableEq

/-- One scored outcome: the dict appended by `calculate_percentage_change`. -/
structure Outcome where
  symbol : String
  shift_time : ℚ
  shift_type : ShiftType
  price_at_cross : ℚ
  current_price : ℚ
  pct_change : ℚ
  abs_pct_change : ℚ
  time_since_shift_mins : ℚ
deriving DecidableEq

/-- Python slice `l[-K:]`: for `K = 0` the slice `l[-0:] = l[0:]` is the
whole list, otherwise the last `K` elements (all of `l` when `K > len`). -/
def lastSlice (K : ℕ) (l : List α) : List α :=
  if K = 0 then l else l.drop (l.length - K)

/-- `calculate_moving_average`: `None` while fewer than `ma_period` samples
exist, otherwise `np.mean` of the prices of the last `ma_period` samples. -/
def calculate_moving_average (K : ℕ) (hist : List Sample) : Option ℚ :=
  if hist.length < K then none
  else
    let prices := (lastSlice K hist).map Sample.price
    some (prices.sum / (prices.length : ℚ))

/-- Body of `detect_momentum_shift` after the moving average has been
computed: compare, possibly append a shift, overwrite the cross status. -/
def detectStep (ma : Option ℚ) (status : Option CrossStatus) (ledger : List Shift)
    (current_ltp t : ℚ) : Option CrossStatus × List Shift :=
  match ma with
  | none => (status, ledger)
  | some m =>
    let current_above_ma := decide (current_ltp > m)
    let ledger' :=
      match status with
      | none => ledger
      | some prev =>
        if current_above_ma && !prev.above_ma then
          ledger ++ [⟨t, ShiftType.Upward, current_ltp, m⟩]
        else if !current_above_ma && prev.above_ma then
          ledger ++ [⟨t, ShiftType.Downward, current_ltp, m⟩]
        else ledger
    (some ⟨current_above_ma, t⟩, ledger')

/-- `detect_momentum_shift` for one symbol: compute the moving average from
the (already updated) history, then run the comparison step. -/
def detect_momentum_shift (K : ℕ) (hist : List Sample) (status : Option CrossStatus)
    (ledger : List Shift) (current_ltp t : ℚ) : Option CrossStatus × List Shift :=
  detectStep (calculate_moving_average K hist) status ledger current_ltp t

/-- The result dict built inside the loop of `calculate_percentage_change`. -/
def scoreOutcome (symbol : String) (now current_ltp : ℚ) (shift : Shift) : Outcome :=
  let pct_change := (current_ltp - shift.price_at_cross) / shift.price_at_cross * 100
  { symbol := symbol
    shift_time := shift.timestamp
    shift_type := shift.shift_type
    price_at_cross := shift.price_at_cross
    current_price := current_ltp
    pct_change := pct_change
    abs_pct_change := |pct_change|
    time_since_shift_mins := (now - shift.timestamp) / 60 }

/-- `calculate_percentage_change` for one symbol.  The loop keeps shifts at
most 60 minutes old and divides by `price_at_cross`; in Python that division
raises `ZeroDivisionError` when `price_at_cross` is zero, modelled as
`Except.error ()` (the exception propagates, losing every other outcome). -/
def calculate_percentage_change (symbol : String) (now current_ltp : ℚ) :
    List Shift → Except Unit (List Outcome)
  | [] => Except.ok []
  | shift :: rest =>
    if (now - shift.timestamp) / 60 ≤ 60 then
      if shift.price_at_cross = 0 then Except.error ()
      else
        match calculate_percentage_change symbol now current_ltp rest with
        | Except.error e => Except.error e
        | Except.ok tail => Except.ok (scoreOutcome symbol now current_ltp shift :: tail)
    else calculate_percentage_change symbol now current_ltp rest

/-- Comparison used by `sorted(all_momentum_changes, key=abs_pct_change,
reverse=True)`: `a` may stay before `b` iff `a`'s key is ≥ `b`'s key. -/
def rankLE (a b : Outcome) : Bool := decide (b.abs_pct_change ≤ a.abs_pct_change)

/-- `sorted_changes` in `generate_final_report`: Python's stable sort by
descending `abs_pct_change`, embedded as the stable `List.mergeSort`. -/
def sorted_changes (l : List Outcome) : List Outcome :=
  l.mergeSort rankLE

/-- `upward_shifts`: filter of the already sorted combined list. -/
def upward_shifts (l : List Outcome) : List Outcome :=
  (sorted_changes l).filter (fun s => decide (s.shift_type = ShiftType.Upward))

/-- `downward_shifts`: filter of the already sorted combined list. -/
def downward_shifts (l : List Outcome) : List Outcome :=
  (sorted_changes l).filter (fun s => decide (s.shift_type = ShiftType.Downward))

/-- The reported upward list: `upward_shifts[:5]`. -/
def top_upward (l : List Outcome) : List Outcome := (upward_shifts l).take 5

/-- The reported downward list: `downward_shifts[:5]`. -/
def top_downward (l : List Outcome) : List Outcome := (downward_shifts l).take 5

/-- `deque(maxlen=60).append`: append, evicting the oldest entry when the
window already holds 60 samples. -/
def recordSample (hist : List Sample) (s : Sample) : List Sample :=
  if hist.length < 60 then hist ++ [s] else hist.drop 1 ++ [s]

/-- One feed entry of a cycle: `(symbol, ltp, timestamp)`. -/
structure Quote where
  symbol : String
  ltp : ℚ
  timestamp : ℚ
deriving DecidableEq

/-- The three per-symbol dictionaries of `IntradayMomentumAnalyzer`. -/
structure AnalyzerState where
  price_history : String → List Sample
  momentum_shifts : String → List Shift
  prev_cross_status : String → Option CrossStatus

/-- The state right after `__init__`: every symbol maps to an empty
window, an empty ledger and no cross status. -/
def initState : AnalyzerState :=
  { price_history := fun _ => []
    momentum_shifts := fun _ => []
    prev_cross_status := fun _ => none }

/-- Body of the per-symbol part of the loop in `run_analysis`: append the
sample to the history, then run `detect_momentum_shift` on the updated
history. -/
def processSymbol (K : ℕ) (st : AnalyzerState) (q : Quote) : AnalyzerState :=
  let hist' := recordSample (st.price_history q.symbol) ⟨q.timestamp, q.ltp⟩
  let det := detect_momentum_shift K hist' (st.prev_cross_status q.symbol)
      (st.momentum_shifts q.symbol) q.ltp q.timestamp
  { price_history := fun s => if s = q.symbol then hist' else st.price_history s
    momentum_shifts := fun s => if s = q.symbol then det.2 else st.momentum_shifts s
    prev_cross_status := fun s => if s = q.symbol then det.1 else st.prev_cross_status s }

/-- One iteration of the `run_analysis` loop over a fetched snapshot. -/
def processCycle (K : ℕ) (st : AnalyzerState) (prices : List Quote) : AnalyzerState :=
  prices.foldl (processSymbol K) st

/-- Several consecutive iterations of the loop. -/
def runCycles (K : ℕ) (st : AnalyzerState) (cycles : List (List Quote)) : AnalyzerState :=
  cycles.foldl (processCycle K) st

/-- One evaluation fed to the cross-detector: price, moving average (possibly
undefined) and timestamp. -/
structure Evaluation where
  ltp : ℚ
  ma : Option ℚ
  timestamp : ℚ
deriving DecidableEq

/-- Run the cross-detector over a sequence of evaluations of one symbol,
starting with no recorded status and an empty ledger. -/
def runDetector (evals : List Evaluation) : Option CrossStatus × List Shift :=
  evals.foldl (fun st e => detectStep e.ma st.1 st.2 e.ltp e.timestamp) (none, [])

/-- Number of adjacent sign changes in a boolean sequence. -/
def countChanges : List Bool → ℕ
  | [] => 0
  | [_] => 0
  | a :: b :: rest => (if a = b then 0 else 1) + countChanges (b :: rest)

/-- An evaluation triple (price, moving average, time) whose moving average
is defined. -/
def definedEval (p : ℚ × ℚ × ℚ) : Evaluation := ⟨p.1, some p.2.1, p.2.2⟩

/-- Run the detector body over triples whose moving average is defined. -/
def runDefined (acc : Option CrossStatus × List Shift) (ps : List (ℚ × ℚ × ℚ)) :
    Option CrossStatus × List Shift :=
  ps.foldl (fun st e => detectStep (some e.2.1) st.1 st.2 e.1 e.2.2) acc

theorem detectStep_baseline (m p t : ℚ) (L : List Shift) :
    detectStep (some m) none L p t = (some ⟨decide (p > m), t⟩, L) := rfl

theorem detectStep_tracking (m p t : ℚ) (prev : CrossStatus) (L : List Shift) :
    detectStep (some m) (some prev) L p t
      = (some ⟨decide (p > m), t⟩,
         if prev.above_ma = decide (p > m) then L
         else L ++ [⟨t, if decide (p > m) = true then ShiftType.Upward else ShiftType.Downward,
           p, m⟩]) := by
  simp only [detectStep]
  cases h : decide (p > m) <;> cases hb : prev.above_ma <;> simp [h, hb]

theorem countChanges_cons_cons (a b : Bool) (l : List Bool) :
    countChanges (a :: b :: l) = (if a = b then 0 else 1) + countChanges (b :: l) := rfl

theorem runDefined_length (ps : List (ℚ × ℚ × ℚ)) (b : Bool) (t0 : ℚ) (L : List Shift) :
    (runDefined ((some ⟨b, t0⟩ : Option CrossStatus), L) ps).2.length
      = L.length + countChanges (b :: ps.map fun p => decide (p.1 > p.2.1)) := by
  induction ps generalizing b t0 L with
  | nil => simp [runDefined, countChanges]
  | cons e es ih =>
    simp only [runDefined, List.foldl_cons, List.map_cons, detectStep_tracking,
      countChanges_cons_cons]
    by_cases hba : b = decide (e.1 > e.2.1)
    · rw [if_pos hba, if_pos hba]
      rw [show (es.foldl (fun st x => detectStep (some x.2.1) st.1 st.2 x.1 x.2.2)
          ((some ⟨decide (e.1 > e.2.1), e.2.2⟩ : Option CrossStatus), L))
          = runDefined ((some ⟨decide (e.1 > e.2.1), e.2.2⟩ : Option CrossStatus), L) es
          from rfl, ih]
      omega
    · rw [if_neg hba, if_neg hba]
      rw [show (es.foldl (fun st x => detectStep (some x.2.1) st.1 st.2 x.1 x.2.2)
          ((some ⟨decide (e.1 > e.2.1), e.2.2⟩ : Option CrossStatus),
            L ++ [⟨e.2.2, if decide (e.1 > e.2.1) = true then ShiftType.Upward
              else ShiftType.Downward, e.1, e.2.1⟩]))
          = runDefined ((some ⟨decide (e.1 > e.2.1), e.2.2⟩ : Option CrossStatus),
            L ++ [⟨e.2.2, if decide (e.1 > e.2.1) = true then ShiftType.Upward
              else ShiftType.Downward, e.1, e.2.1⟩]) es
          from rfl, ih]
      simp
      omega

theorem runDetector_map_definedEval (ps : List (ℚ × ℚ × ℚ)) :
    runDetector (ps.map definedEval) = runDefined (none, []) ps := by
  rw [runDetector, runDefined, List.foldl_map]
  rfl

/-- C3: the detector computes above-now strictly (price equal to the average
counts as not above), records it in the status, emits no event on the first
defined evaluation, emits exactly one event with direction Upward when above
else Downward exactly when above-now differs from the recorded state, and
over any sequence of defined evaluations the number of emitted events equals
the number of sign changes of (price minus moving average), excluding the
first defined evaluation. -/
theorem C3_cross_detector :
    (∀ (p m t : ℚ) (st : Option CrossStatus) (L : List Shift),
        (detectStep (some m) st L p t).1 = some ⟨decide (p > m), t⟩)
    ∧ (∀ (p m t : ℚ) (st : Option CrossStatus) (L : List Shift), p = m →
        (detectStep (some m) st L p t).1 = some ⟨false, t⟩)
    ∧ (∀ (p m t : ℚ) (L : List Shift), (detectStep (some m) none L p t).2 = L)
    ∧ (∀ (p m t : ℚ) (prev : CrossStatus) (L : List Shift),
        (detectStep (some m) (some prev) L p t).2
          = if prev.above_ma = decide (p > m) then L
            else L ++ [⟨t, if decide (p > m) = true then ShiftType.Upward
              else ShiftType.Downward, p, m⟩])
    ∧ (∀ ps : List (ℚ × ℚ × ℚ),
        (runDetector (ps.map definedEval)).2.length
          = countChanges (ps.map fun p => decide (p.1 > p.2.1))) := by
  refine ⟨?_, ?_, ?_, ?_, ?_⟩
  · intro p m t st L
    cases st with
    | none => rfl
    | some prev => rw [detectStep_tracking]
  · intro p m t st L hpm
    subst hpm
    have hd : decide (p > p) = false := by simp
    cases st with
    | none => rw [detectStep_baseline, hd]
    | some prev => rw [detectStep_tracking, hd]
  · intro p m t L
    rfl
  · intro p m t prev L
    rw [detectStep_tracking]
  · intro ps
    rw [runDetector_map_definedEval]
    cases ps with
    | nil => rfl
    | cons e es =>
      rw [show runDefined (none, []) (e :: es)
          = runDefined ((some ⟨decide (e.1 > e.2.1), e.2.2⟩ : Option CrossStatus), []) es
          from rfl, runDefined_length]
      simp [List.map_cons]

/-- Witness for C3: at price equal to the moving average the recorded state
is not-above. -/
theorem C3_cross_detector_witness :
    (detectStep (some (10 : ℚ)) none [] 10 1).1 = some ⟨false, 1⟩ :=
  C3_cross_detector.2.1 10 10 1 none [] rfl

/-- Directions of successive shifts strictly alternate. -/
def Alternating (L : List Shift) : Prop :=
  List.Chain' (fun a b => a.shift_type ≠ b.shift_type) L

/-- Invariant tying the detector status to the last emitted shift: the
ledger alternates, and if any shift has been emitted the status is defined
and its above flag matches the direction of the most recent shift. -/
def DetInv (st : Option CrossStatus) (L : List Shift) : Prop :=
  Alternating L ∧ ∀ ev, L.getLast? = some ev →
    ∃ cs, st = some cs ∧ (ev.shift_type = ShiftType.Upward ↔ cs.above_ma = true)

theorem detectStep_inv (ma : Option ℚ) (st : Option CrossStatus) (L : List Shift) (p t : ℚ)
    (h : DetInv st L) : DetInv (detectStep ma st L p t).1 (detectStep ma st L p t).2 := by
  obtain ⟨halt, hlast⟩ := h
  cases ma with
  | none => exact ⟨halt, hlast⟩
  | some m =>
    cases st with
    | none =>
      rw [detectStep_baseline]
      refine ⟨halt, ?_⟩
      intro ev hev
      obtain ⟨cs, hcs, _⟩ := hlast ev hev
      exact absurd hcs (by simp)
    | some prev =>
      rw [detectStep_tracking]
      by_cases hc : prev.above_ma = decide (p > m)
      · rw [if_pos hc]
        refine ⟨halt, ?_⟩
        intro ev hev
        obtain ⟨cs, hcs, hiff⟩ := hlast ev hev
        have hpc : prev = cs := by injection hcs
        refine ⟨⟨decide (p > m), t⟩, rfl, ?_⟩
        rw [← hc, hpc]
        exact hiff
      · rw [if_neg hc]
        constructor
        · rw [Alternating, List.chain'_append]
          refine ⟨halt, List.chain'_singleton _, ?_⟩
          intro x hx y hy
          simp only [List.head?_cons, Option.mem_def, Option.some_inj] at hy
          subst hy
          obtain ⟨cs, hcs, hiff⟩ := hlast x hx
          have hpc : prev = cs := by injection hcs
          rw [← hpc] at hiff
          cases hpb : prev.above_ma with
          | true =>
            have hx_up : x.shift_type = ShiftType.Upward := hiff.mpr hpb
            have hd : decide (p > m) = false := by
              cases hdd : decide (p > m) with
              | true => exact absurd (hpb.trans hdd.symm) hc
              | false => rfl
            simp [hd, hx_up]
          | false =>
            have hx_ne : x.shift_type ≠ ShiftType.Upward := fun hup => by
              have hcon := hiff.mp hup
              rw [hpb] at hcon
              exact Bool.noConfusion hcon
            have hd : decide (p > m) = true := by
              cases hdd : decide (p > m) with
              | true => rfl
              | false => exact absurd (hpb.trans hdd.symm) hc
            simpa [hd] using hx_ne
        · intro ev hev
          rw [List.getLast?_concat] at hev
          injection hev with hev
          subst hev
          refine ⟨⟨decide (p > m), t⟩, rfl, ?_⟩
          cases hd : decide (p > m) with
          | true => simp [hd]
          | false => simp [hd]

theorem foldl_detinv (evals : List Evaluation) (acc : Option CrossStatus × List Shift)
    (h : DetInv acc.1 acc.2) :
    DetInv ((evals.foldl (fun st e => detectStep e.ma st.1 st.2 e.ltp e.timestamp) acc).1)
      ((evals.foldl (fun st e => detectStep e.ma st.1 st.2 e.ltp e.timestamp) acc).2) := by
  induction evals generalizing acc with
  | nil => exact h
  | cons e es ih =>
    simp only [List.foldl_cons]
    exact ih _ (detectStep_inv e.ma acc.1 acc.2 e.ltp e.timestamp h)

/-- C8: over every sequence of evaluations (defined or undefined moving
average) the directions of successive shifts in the ledger strictly
alternate. -/
theorem C8_shift_directions_alternate (evals : List Evaluation) :
    Alternating (runDetector evals).2 :=
  (foldl_detinv evals (none, [])
    ⟨List.chain'_nil, fun ev hev => by simp at hev⟩).1

/-- C10: evaluating the detector a second time with the identical
(price, moving average, time) already recorded by the first evaluation
emits no new event and leaves the recorded status unchanged; an undefined
moving average skips the evaluation entirely, leaving status and ledger
untouched. -/
theorem C10_detector_idempotent (st : Option CrossStatus) (L : List Shift) (p m t : ℚ) :
    detectStep (some m) (detectStep (some m) st L p t).1 (detectStep (some m) st L p t).2 p t
      = detectStep (some m) st L p t
    ∧ detectStep none st L p t = (st, L) := by
  constructor
  · simp only [detectStep]
    cases h : decide (p > m) <;> simp [h]
  · rfl

/-- C5: the reported upward and downward lists are positional subsequences
of the single globally sorted combined ranking, each truncated to at most
the top 5 entries. -/
theorem C5_direction_lists_from_global_sort (l : List Outcome) :
    List.Sublist (top_upward l) (sorted_changes l)
    ∧ List.Sublist (top_downward l) (sorted_changes l)
    ∧ (top_upward l).length ≤ 5 ∧ (top_downward l).length ≤ 5 := by
  refine ⟨?_, ?_, ?_, ?_⟩
  · exact (List.take_sublist 5 _).trans (List.filter_sublist _)
  · exact (List.take_sublist 5 _).trans (List.filter_sublist _)
  · exact List.length_take_le 5 _
  · exact List.length_take_le 5 _

/-- C4: the moving average is undefined (`none`) whenever fewer than K
samples exist; with at least K samples it is the arithmetic mean of the
prices of exactly the most recent K samples, and appending one more sample
shifts the averaged window by exactly one, dropping the oldest. -/
theorem C4_moving_average_window (K : ℕ) (hist : List Sample) (s : Sample) (hK : 0 < K) :
    (hist.length < K → calculate_moving_average K hist = none)
    ∧ (K ≤ hist.length →
        calculate_moving_average K hist
          = some (((lastSlice K hist).map Sample.price).sum / (K : ℚ))
        ∧ (lastSlice K hist).length = K
        ∧ lastSlice K hist = hist.drop (hist.length - K))
    ∧ (K ≤ hist.length →
        lastSlice K (hist ++ [s]) = (lastSlice K hist).drop 1 ++ [s]) := by
  have hne : K ≠ 0 := hK.ne'
  refine ⟨fun h => ?_, fun h => ?_, fun h => ?_⟩
  · simp [calculate_moving_average, h]
  · have hslice : lastSlice K hist = hist.drop (hist.length - K) := by
      simp [lastSlice, hne]
    have hlen : (lastSlice K hist).length = K := by
      rw [hslice, List.length_drop]; omega
    refine ⟨?_, hlen, hslice⟩
    simp only [calculate_moving_average, if_neg (Nat.not_lt.mpr h)]
    rw [List.length_map, hlen]
  · simp only [lastSlice, if_neg hne, List.length_append, List.length_singleton]
    rw [List.drop_append_of_le_length (by omega), List.drop_drop]
    congr 2
    omega

/-- Concrete three-sample history used to witness C4. -/
def c4hist : List Sample := [⟨1, 10⟩, ⟨2, 20⟩, ⟨3, 30⟩]

/-- Witness for C4 at K = 2 on a three-sample history. -/
theorem C4_moving_average_window_witness :
    calculate_moving_average 2 c4hist
      = some (((lastSlice 2 c4hist).map Sample.price).sum / (2 : ℚ))
    ∧ (lastSlice 2 c4hist).length = 2
    ∧ lastSlice 2 c4hist = c4hist.drop (c4hist.length - 2) :=
  (C4_moving_average_window 2 c4hist ⟨4, 40⟩ (by decide)).2.1 (by decide)

/-- The suffix of the last `n` elements of a list. -/
def lastN (n : ℕ) (l : List α) : List α := l.drop (l.length - n)

theorem recordSample_lastN (hist : List Sample) (s : Sample) (h : hist.length ≤ 60) :
    recordSample hist s = lastN 60 (hist ++ [s]) := by
  by_cases hlt : hist.length < 60
  · rw [recordSample, if_pos hlt, lastN, List.length_append, List.length_singleton,
      Nat.sub_eq_zero_of_le (by omega), List.drop_zero]
  · have h60 : hist.length = 60 := by omega
    rw [recordSample, if_neg hlt, lastN, List.length_append, List.length_singleton,
      List.drop_append_of_le_length (by omega), h60]

theorem lastN_append_singleton (l : List α) (a : α) :
    lastN 60 (lastN 60 l ++ [a]) = lastN 60 (l ++ [a]) := by
  by_cases hn : l.length ≤ 60
  · have h0 : l.length - 60 = 0 := by omega
    simp [lastN, h0]
  · simp only [lastN, List.length_append, List.length_drop, List.length_singleton]
    rw [List.drop_append_of_le_length (by rw [List.length_drop]; omega),
      List.drop_append_of_le_length (by omega), List.drop_drop]
    congr 2
    omega

theorem foldl_recordSample (ops : List Sample) :
    ops.foldl recordSample [] = lastN 60 ops := by
  induction ops using List.reverseRecOn with
  | nil => rfl
  | append_singleton l a ih =>
    rw [List.foldl_append, List.foldl_cons, List.foldl_nil, ih,
      recordSample_lastN _ _ (by rw [lastN, List.length_drop]; omega),
      lastN_append_singleton]

/-- C7: for every sequence of record operations with non-decreasing
observation times, the history window holds at most 60 samples in
non-decreasing time order; insertion always appends at the newest end, only
appends while below capacity, and at capacity evicts exactly the oldest
sample. -/
theorem C7_history_window_invariants (ops : List Sample)
    (hmono : List.Sorted (fun a b => a ≤ b) (ops.map Sample.timestamp)) :
    (ops.foldl recordSample []).length ≤ 60
    ∧ List.Sorted (fun a b => a ≤ b) ((ops.foldl recordSample []).map Sample.timestamp)
    ∧ (∀ (hist : List Sample) (s : Sample), hist.length < 60 →
        recordSample hist s = hist ++ [s])
    ∧ (∀ (hist : List Sample) (s : Sample), hist.length = 60 →
        recordSample hist s = hist.drop 1 ++ [s])
    ∧ (∀ (hist : List Sample) (s : Sample), (recordSample hist s).getLast? = some s) := by
  refine ⟨?_, ?_, ?_, ?_, ?_⟩
  · rw [foldl_recordSample, lastN, List.length_drop]
    omega
  · rw [foldl_recordSample, lastN, List.map_drop]
    exact List.Pairwise.sublist (List.drop_sublist _ _) hmono
  · intro hist s h
    rw [recordSample, if_pos h]
  · intro hist s h
    rw [recordSample, if_neg (by omega)]
  · intro hist s
    rw [recordSample]
    split <;> rw [List.getLast?_concat]

/-- Concrete monotone sample sequence used to witness C7. -/
def c7ops : List Sample := [⟨1, 10⟩, ⟨2, 11⟩, ⟨3, 9⟩]

/-- Witness for C7 on a concrete three-sample run. -/
theorem C7_history_window_invariants_witness :
    (c7ops.foldl recordSample []).length ≤ 60
    ∧ List.Sorted (fun a b => a ≤ b) ((c7ops.foldl recordSample []).map Sample.timestamp)
    ∧ (∀ (hist : List Sample) (s : Sample), hist.length < 60 →
        recordSample hist s = hist ++ [s])
    ∧ (∀ (hist : List Sample) (s : Sample), hist.length = 60 →
        recordSample hist s = hist.drop 1 ++ [s])
    ∧ (∀ (hist : List Sample) (s : Sample), (recordSample hist s).getLast? = some s) :=
  C7_history_window_invariants c7ops (by
    simp only [c7ops, List.map_cons, List.map_nil, List.sorted_cons, List.mem_cons,
      List.mem_singleton, List.not_mem_nil]
    norm_num)

/-- C6: scoring a ledger returns exactly the shifts at most 60 minutes old,
in original ledger order, each mapped to its scored outcome (provided no
in-window shift has a zero cross price, the failure case settled under C1). -/
theorem C6_relevance_window (symbol : String) (now current_ltp : ℚ) (ledger : List Shift)
    (hnz : ∀ sh ∈ ledger, (now - sh.timestamp) / 60 ≤ 60 → sh.price_at_cross ≠ 0) :
    calculate_percentage_change symbol now current_ltp ledger
      = Except.ok ((ledger.filter (fun sh => decide ((now - sh.timestamp) / 60 ≤ 60))).map
          (scoreOutcome symbol now current_ltp)) := by
  induction ledger with
  | nil => rfl
  | cons sh rest ih =>
    have hnzr : ∀ x ∈ rest, (now - x.timestamp) / 60 ≤ 60 → x.price_at_cross ≠ 0 :=
      fun x hx => hnz x (List.mem_cons_of_mem _ hx)
    by_cases hw : (now - sh.timestamp) / 60 ≤ 60
    · rw [calculate_percentage_change, if_pos hw,
        if_neg (hnz sh (List.mem_cons_self _ _) hw), ih hnzr]
      simp [List.filter_cons, hw]
    · rw [calculate_percentage_change, if_neg hw, ih hnzr]
      simp [List.filter_cons, hw]

/-- Concrete ledger used to witness C6: one shift 0 minutes old, one 120
minutes old. -/
def c6ledger : List Shift :=
  [⟨0, ShiftType.Upward, 100, 99⟩, ⟨-7200, ShiftType.Downward, 50, 51⟩]

/-- Witness for C6 at a concrete ledger and scoring time. -/
theorem C6_relevance_window_witness :
    calculate_percentage_change "TCS" 0 105 c6ledger
      = Except.ok ((c6ledger.filter (fun sh => decide ((0 - sh.timestamp) / 60 ≤ 60))).map
          (scoreOutcome "TCS" 0 105)) :=
  C6_relevance_window "TCS" 0 105 c6ledger (by
    intro sh hsh hw
    simp only [c6ledger, List.mem_cons, List.not_mem_nil, or_false] at hsh
    rcases hsh with h | h <;> subst h <;> norm_num)

/-- A recorded shift whose price at cross is exactly zero. -/
def c1zero : Shift := ⟨0, ShiftType.Upward, 0, 10⟩

/-- A recorded shift with a nonzero price at cross. -/
def c1good : Shift := ⟨0, ShiftType.Downward, 100, 101⟩

/-- C1: contrary to the specified behaviour, scoring a ledger containing a
shift with `price_at_cross = 0` does not drop that single outcome: the
division raises (modelled as `Except.error`), aborting the scoring of every
other outcome of that symbol, while the same ledger without the zero-price
shift scores normally. -/
theorem C1_zero_cross_price_aborts_scoring :
    calculate_percentage_change "RELIANCE" 0 110 [c1zero, c1good] = Except.error ()
    ∧ calculate_percentage_change "RELIANCE" 0 110 [c1good]
      = Except.ok [scoreOutcome "RELIANCE" 0 110 c1good] := by
  constructor
  · simp only [calculate_percentage_change, c1zero, c1good]
    norm_num
  · simp only [calculate_percentage_change, c1good]
    norm_num

theorem processSymbol_frame (K : ℕ) (st : AnalyzerState) (q : Quote) (s : String)
    (h : q.symbol ≠ s) :
    (processSymbol K st q).price_history s = st.price_history s
    ∧ (processSymbol K st q).momentum_shifts s = st.momentum_shifts s
    ∧ (processSymbol K st q).prev_cross_status s = st.prev_cross_status s := by
  have hs : ¬ (s = q.symbol) := fun hh => h hh.symm
  exact ⟨by simp [processSymbol, hs], by simp [processSymbol, hs], by simp [processSymbol, hs]⟩

theorem processCycle_frame (K : ℕ) (st : AnalyzerState) (cyc : List Quote) (s : String)
    (h : ∀ q ∈ cyc, q.symbol ≠ s) :
    (processCycle K st cyc).price_history s = st.price_history s
    ∧ (processCycle K st cyc).momentum_shifts s = st.momentum_shifts s
    ∧ (processCycle K st cyc).prev_cross_status s = st.prev_cross_status s := by
  induction cyc generalizing st with
  | nil => exact ⟨rfl, rfl, rfl⟩
  | cons q rest ih =>
    have h1 := processSymbol_frame K st q s (h q (List.mem_cons_self _ _))
    have h2 := ih (processSymbol K st q) (fun x hx => h x (List.mem_cons_of_mem _ hx))
    exact ⟨h2.1.trans h1.1, h2.2.1.trans h1.2.1, h2.2.2.trans h1.2.2⟩

/-- C9: an instrument absent from the feed for any number of consecutive
cycles has its history window, cross status and shift ledger unchanged
across those cycles; processing mutates only the symbols present in each
snapshot. -/
theorem C9_absent_symbol_state_preserved (K : ℕ) (st : AnalyzerState)
    (cycles : List (List Quote)) (s : String)
    (h : ∀ cyc ∈ cycles, ∀ q ∈ cyc, q.symbol ≠ s) :
    (runCycles K st cycles).price_history s = st.price_history s
    ∧ (runCycles K st cycles).momentum_shifts s = st.momentum_shifts s
    ∧ (runCycles K st cycles).prev_cross_status s = st.prev_cross_status s := by
  induction cycles generalizing st with
  | nil => exact ⟨rfl, rfl, rfl⟩
  | cons cyc rest ih =>
    have h1 := processCycle_frame K st cyc s (h cyc (List.mem_cons_self _ _))
    have h2 := ih (processCycle K st cyc) (fun x hx => h x (List.mem_cons_of_mem _ hx))
    exact ⟨h2.1.trans h1.1, h2.2.1.trans h1.2.1, h2.2.2.trans h1.2.2⟩

/-- A cycle quoting only the symbol TCS. -/
def c9quote : Quote := ⟨"TCS", 100, 1⟩

/-- A starting state in which INFY already has recorded history. -/
def c9state : AnalyzerState := processCycle 10 initState [⟨"INFY", 50, 0⟩]

/-- Witness for C9: three cycles without INFY leave its state untouched. -/
theorem C9_absent_symbol_state_preserved_witness :
    (runCycles 10 c9state [[c9quote], [], [c9quote]]).price_history "INFY"
      = c9state.price_history "INFY"
    ∧ (runCycles 10 c9state [[c9quote], [], [c9quote]]).momentum_shifts "INFY"
      = c9state.momentum_shifts "INFY"
    ∧ (runCycles 10 c9state [[c9quote], [], [c9quote]]).prev_cross_status "INFY"
      = c9state.prev_cross_status "INFY" :=
  C9_absent_symbol_state_preserved 10 c9state [[c9quote], [], [c9quote]] "INFY" (by
    intro cyc hc q hq
    simp only [List.mem_cons, List.not_mem_nil, or_false] at hc
    rcases hc with h | h | h <;> subst h <;>
      simp only [List.mem_cons, List.not_mem_nil, or_false] at hq <;>
      subst hq <;> decide)

/-- The ordering the spec claims for the combined ranking: descending
absolute percentage change, ties broken by most-recent detection time
first, then by instrument symbol ascending. -/
def specRankedBefore (a b : Outcome) : Bool :=
  if a.abs_pct_change = b.abs_pct_change then
    if a.shift_time = b.shift_time then decide (a.symbol ≤ b.symbol)
    else decide (b.shift_time < a.shift_time)
  else decide (b.abs_pct_change < a.abs_pct_change)

/-- An older outcome, listed first, tied on absolute percentage change. -/
def oA : Outcome := ⟨"TCS", 1, ShiftType.Upward, 100, 105, 5, 5, 10⟩

/-- A more recent outcome with the same absolute percentage change. -/
def oB : Outcome := ⟨"INFY", 2, ShiftType.Upward, 200, 210, 5, 5, 9⟩

/-- C2 counterexample: on two outcomes tied on absolute percentage change
the ranker keeps input order (stable sort), so the more recent outcome oB
stays second, violating the claimed most-recent-first tie-break. -/
theorem C2_counterexample_no_tiebreak :
    ¬ List.Pairwise (fun a b => specRankedBefore a b = true) (sorted_changes [oA, oB]) := by
  have hpair : List.Pairwise (fun a b => rankLE a b = true) [oA, oB] := by
    refine List.Pairwise.cons ?_ (List.pairwise_singleton _ _)
    intro b hb
    rw [List.mem_singleton] at hb
    subst hb
    simp only [rankLE, decide_eq_true_eq, oA, oB]
    norm_num
  have hs : sorted_changes [oA, oB] = [oA, oB] := List.mergeSort_of_sorted hpair
  rw [hs]
  intro h
  have hone : specRankedBefore oA oB = true :=
    (List.pairwise_cons.mp h).1 oB (List.mem_cons_self _ _)
  rw [specRankedBefore, oA, oB] at hone
  norm_num at hone

theorem rankLE_trans : ∀ (a b c : Outcome), rankLE a b → rankLE b c → rankLE a c := by
  intro a b c hab hbc
  simp only [rankLE, decide_eq_true_eq] at *
  exact hbc.trans hab

theorem rankLE_total : ∀ (a b : Outcome), rankLE a b || rankLE b a := by
  intro a b
  simp only [rankLE, Bool.or_eq_true, decide_eq_true_eq]
  exact le_total _ _

/-- C2 amended: the ranker returns a permutation of its input sorted by
descending absolute percentage change, and it is stable: outcomes tied on
the key keep their input order, so the output is a deterministic function
of the input list (not of the input regarded as a set, and with no
time or symbol tie-break). -/
theorem C2_ranker_sorts_by_abs_change_stably (l : List Outcome) (k : ℚ) :
    List.Perm (sorted_changes l) l
    ∧ List.Pairwise (fun a b => b.abs_pct_change ≤ a.abs_pct_change) (sorted_changes l)
    ∧ (sorted_changes l).filter (fun o => decide (o.abs_pct_change = k))
        = l.filter (fun o => decide (o.abs_pct_change = k)) := by
  refine ⟨List.mergeSort_perm l rankLE, ?_, ?_⟩
  · exact (List.sorted_mergeSort rankLE_trans rankLE_total l).imp
      (fun hab => by simpa [rankLE, decide_eq_true_eq] using hab)
  · have hpair : (l.filter (fun o => decide (o.abs_pct_change = k))).Pairwise
        (fun a b => rankLE a b = true) := by
      apply List.pairwise_of_forall_mem_list
      intro a ha b hb
      have hak : a.abs_pct_change = k := by
        have := List.of_mem_filter ha
        simpa using this
      have hbk : b.abs_pct_change = k := by
        have := List.of_mem_filter hb
        simpa using this
      simp [rankLE, hak, hbk]
    have hsub : List.Sublist (l.filter (fun o => decide (o.abs_pct_change = k)))
        (List.mergeSort l rankLE) :=
      List.sublist_mergeSort rankLE_trans rankLE_total hpair (List.filter_sublist l)
    have hff : (l.filter (fun o => decide (o.abs_pct_change = k))).filter
        (fun o => decide (o.abs_pct_change = k))
        = l.filter (fun o => decide (o.abs_pct_change = k)) := by
      rw [List.filter_filter]
      simp
    have hsub2 : List.Sublist (l.filter (fun o => decide (o.abs_pct_change = k)))
        ((List.mergeSort l rankLE).filter (fun o => decide (o.abs_pct_change = k))) := by
      have := List.Sublist.filter (fun o => decide (o.abs_pct_change = k)) hsub
      rwa [hff] at this
    have hperm : List.Perm ((List.mergeSort l rankLE).filter
        (fun o => decide (o.abs_pct_change = k)))
        (l.filter (fun o => decide (o.abs_pct_change = k))) :=
      List.Perm.filter _ (List.mergeSort_perm l rankLE)
    exact (hsub2.eq_of_length hperm.length_eq.symm).symm

end MomentumAnalyzer
